import Mathlib

/-!
# Verification of the EJERCICIOS_PRACTICOS_PARTE_2 pipelines

Shallow embedding, in Lean 4, of the worker functions of the four
multiprocessing exercises (EJ1–EJ4) of the repository, together with
proofs of the specified properties.

Modelling conventions:
* A `Pipe` channel is a FIFO list of messages; the Python sentinel `None`
  is `Option.none`, a real payload `x` is `Option.some x`.
* A worker's blocking receive loop is a structurally recursive function on
  the list of messages it will ever receive; exhausting the list without
  meeting a sentinel models blocking forever, returned as `Option.none`.
* A file system is a partial map from nothing in particular: each worker
  takes directly the `Option (List String)` content of the one file it
  reads — `none` models an absent file (Python `FileNotFoundError`),
  `some lines` the file's lines.
* Python `float` values are modelled as `ℚ`; `int` as `ℤ`.  Wall-clock
  durations and PIDs, which the code only reports, are carried as opaque
  parameters.  `print` logging is elided: it is not an observable of any
  claim.
* `int(s)` / `float(s)` are modelled on plain decimal literals
  (optional surrounding whitespace, optional sign, digits, and for floats
  an optional fractional part); exotic literals (underscores, exponents,
  `inf`/`nan`) do not occur in this repository's data.
-/

/-! ## Python string and number primitives -/

/-- Python `str.strip()` on a character list (ASCII whitespace). -/
def pyStrip (l : List Char) : List Char :=
  ((l.dropWhile Char.isWhitespace).reverse.dropWhile Char.isWhitespace).reverse

/-- Value of a list of decimal digit characters. -/
def digitsToNat (l : List Char) : Nat :=
  l.foldl (fun acc c => 10 * acc + (c.toNat - 48)) 0

/-- A nonempty all-digit run, as a `Nat`. -/
def digitRun? (l : List Char) : Option Nat :=
  if !l.isEmpty && l.all Char.isDigit then some (digitsToNat l) else none

/-- Model of Python `int(s)` on decimal literals: strip whitespace,
optional sign, nonempty digit run; `none` models `ValueError`. -/
def pyIntList? (l : List Char) : Option Int :=
  match pyStrip l with
  | '+' :: r => (digitRun? r).map Int.ofNat
  | '-' :: r => (digitRun? r).map (fun n => -(n : Int))
  | r => (digitRun? r).map Int.ofNat

/-- `int(s)` on a `String`. -/
def pyInt? (s : String) : Option Int :=
  pyIntList? s.data

/-! ## EJ2: IP-classification pipeline (`generar_ips → filtrar_ips → imprimir_ips`)

Source: `src/EJ2/EJ2.py`. -/

/-- `ip.split('.')[0]`: the characters of `ip` before the first `'.'`. -/
def firstOctetStr (ip : String) : List Char :=
  ip.data.takeWhile (fun c => c ≠ '.')

/-- `clase_ip(ip)` from `src/EJ2/EJ2.py`: class of an IPv4 address by its
first dot-separated field; `none` both for a parse failure (the
`try/except` arm) and for an out-of-range first octet. -/
def clase_ip (ip : String) : Option Char :=
  match pyIntList? (firstOctetStr ip) with
  | none => none
  | some primer =>
    if 1 ≤ primer ∧ primer ≤ 126 ∧ primer ≠ 127 then some 'A'
    else if 128 ≤ primer ∧ primer ≤ 191 then some 'B'
    else if 192 ≤ primer ∧ primer ≤ 223 then some 'C'
    else if 224 ≤ primer ∧ primer ≤ 239 then some 'D'
    else if 240 ≤ primer ∧ primer ≤ 254 then some 'E'
    else none

/-- Python `cl in ('A', 'B', 'C')` where `cl` may be `None`. -/
def claseABC (cl : Option Char) : Bool :=
  cl = some 'A' || cl = some 'B' || cl = some 'C'

/-- The receive–filter–forward loop of `filtrar_ips`: consumes messages
until the sentinel, returns the forwarded payloads and the unconsumed
remainder of the input channel.  `none` models the loop blocking forever
because no sentinel ever arrives. -/
def filtrarLoop : List (Option String) → Option (List (String × Char) × List (Option String))
  | [] => none
  | none :: rest => some ([], rest)
  | some ip :: rest =>
    match filtrarLoop rest with
    | none => none
    | some (out, rem) =>
      match clase_ip ip with
      | some cl => if claseABC (some cl) then some ((ip, cl) :: out, rem) else some (out, rem)
      | none => some (out, rem)

/-- Everything `filtrar_ips` sends on its output channel (payloads then the
single trailing sentinel), plus the unconsumed input. -/
def filtrarSent (input : List (Option String)) :
    Option (List (Option (String × Char)) × List (Option String)) :=
  (filtrarLoop input).map (fun p => (p.1.map some ++ [none], p.2))

/-- The receive loop of `imprimir_ips`: consumes messages until the
sentinel, returns the processed payloads and the unconsumed remainder. -/
def imprimirLoop : List (Option (String × Char)) →
    Option (List (String × Char) × List (Option (String × Char)))
  | [] => none
  | none :: rest => some ([], rest)
  | some it :: rest => (imprimirLoop rest).map (fun p => (it :: p.1, p.2))

/-- One step of the filter's per-message behaviour, used to state what the
loop computes: the forwarded message for input `ip`, if any. -/
def keepABC (ip : String) : Option (String × Char) :=
  match clase_ip ip with
  | some c => if claseABC (some c) then some (ip, c) else none
  | none => none

theorem filtrarLoop_eq (xs : List String) (rest : List (Option String)) :
    filtrarLoop (xs.map some ++ none :: rest) = some (xs.filterMap keepABC, rest) := by
  induction xs with
  | nil => rfl
  | cons ip xs ih =>
    cases h : clase_ip ip with
    | none => simp [filtrarLoop, ih, List.filterMap_cons, keepABC, h]
    | some c =>
      by_cases hc : claseABC (some c) = true
      · simp [filtrarLoop, ih, List.filterMap_cons, keepABC, h, hc]
      · simp [filtrarLoop, ih, List.filterMap_cons, keepABC, h, hc]

theorem imprimirLoop_eq (ys : List (String × Char)) (rest : List (Option (String × Char))) :
    imprimirLoop (ys.map some ++ none :: rest) = some (ys, rest) := by
  induction ys with
  | nil => rfl
  | cons y ys ih => simp [imprimirLoop, ih]

theorem keepABC_some (ip : String) (p : String × Char) (h : keepABC ip = some p) :
    p.1 = ip ∧ clase_ip ip = some p.2 ∧ claseABC (some p.2) = true := by
  unfold keepABC at h
  split at h
  · rename_i c hc
    split at h
    · rename_i hb
      injection h with h
      subst h
      exact ⟨rfl, hc, hb⟩
    · exact absurd h (by simp)
  · exact absurd h (by simp)

theorem keepABC_fst_sublist (xs : List String) :
    List.Sublist ((xs.filterMap keepABC).map Prod.fst) xs := by
  induction xs with
  | nil => simp
  | cons ip xs ih =>
    cases h : keepABC ip with
    | none =>
      simp only [List.filterMap_cons, h]
      exact ih.cons ip
    | some p =>
      simp only [List.filterMap_cons, h, List.map_cons, (keepABC_some ip p h).1]
      exact ih.cons₂ ip

theorem keepABC_mem_spec (xs : List String) (p : String × Char)
    (hp : p ∈ xs.filterMap keepABC) :
    clase_ip p.1 = some p.2 ∧ claseABC (some p.2) = true := by
  rw [List.mem_filterMap] at hp
  obtain ⟨a, -, ha⟩ := hp
  obtain ⟨h1, h2, h3⟩ := keepABC_some a p ha
  rw [h1]
  exact ⟨h2, h3⟩

/-- C1.  Sentinel termination of the staged pipeline: on an input channel
holding the real messages `xs` followed by exactly one sentinel,
`filtrar_ips` stops at the sentinel having consumed the whole input, sends
its forwarded payloads followed by exactly one sentinel (its output
contains the sentinel exactly once, in final position), and the sink loop
of `imprimir_ips` terminates after consuming exactly that one sentinel,
having processed every forwarded payload. -/
theorem pipeline_sentinel_termination (xs : List String) :
    filtrarSent (xs.map some ++ [none]) =
      some ((xs.filterMap keepABC).map some ++ [none], []) ∧
    ((xs.filterMap keepABC).map some ++ [none]).count none = 1 ∧
    imprimirLoop ((xs.filterMap keepABC).map some ++ [none]) =
      some (xs.filterMap keepABC, []) := by
  refine ⟨?_, ?_, imprimirLoop_eq _ []⟩
  · unfold filtrarSent
    rw [show (xs.map some ++ [none] : List (Option String)) = xs.map some ++ none :: [] from rfl,
      filtrarLoop_eq]
    rfl
  · rw [List.count_append]
    have h0 : ((xs.filterMap keepABC).map some).count (none : Option (String × Char)) = 0 := by
      rw [List.count_eq_zero]
      simp
    rw [h0]
    rfl

/-- C5.  Order preservation through the filter stage: the payloads emitted
by `filtrar_ips` are exactly `xs.filterMap keepABC` — each surviving input
paired with its class, in input order; their first components form a
subsequence of the input, every emitted pair carries the class `clase_ip`
assigns to its IP with that class in {A, B, C}, and the sink processes
them in the same order. -/
theorem filtrar_order_preservation (xs : List String) (rest : List (Option String)) :
    filtrarLoop (xs.map some ++ none :: rest) = some (xs.filterMap keepABC, rest) ∧
    List.Sublist ((xs.filterMap keepABC).map Prod.fst) xs ∧
    (∀ p ∈ xs.filterMap keepABC, clase_ip p.1 = some p.2 ∧ claseABC (some p.2) = true) ∧
    imprimirLoop ((xs.filterMap keepABC).map some ++ [none]) =
      some (xs.filterMap keepABC, []) :=
  ⟨filtrarLoop_eq xs rest, keepABC_fst_sublist xs, keepABC_mem_spec xs, imprimirLoop_eq _ []⟩

/-- C9.  `clase_ip` is total (the Lean function models the `try/except`:
a parse failure yields `none`, no exception escapes) and classifies by the
parsed first octet: 'A' exactly on 1..126, 'B' on 128..191, 'C' on
192..223, 'D' on 224..239, 'E' on 240..254, and `none` exactly when the
first dot-separated field is unparsable or the octet is ≤ 0, 127, or
≥ 255. -/
theorem clase_ip_classification (ip : String) :
    (clase_ip ip = some 'A' ↔
      ∃ n, pyIntList? (firstOctetStr ip) = some n ∧ 1 ≤ n ∧ n ≤ 126) ∧
    (clase_ip ip = some 'B' ↔
      ∃ n, pyIntList? (firstOctetStr ip) = some n ∧ 128 ≤ n ∧ n ≤ 191) ∧
    (clase_ip ip = some 'C' ↔
      ∃ n, pyIntList? (firstOctetStr ip) = some n ∧ 192 ≤ n ∧ n ≤ 223) ∧
    (clase_ip ip = some 'D' ↔
      ∃ n, pyIntList? (firstOctetStr ip) = some n ∧ 224 ≤ n ∧ n ≤ 239) ∧
    (clase_ip ip = some 'E' ↔
      ∃ n, pyIntList? (firstOctetStr ip) = some n ∧ 240 ≤ n ∧ n ≤ 254) ∧
    (clase_ip ip = none ↔
      pyIntList? (firstOctetStr ip) = none ∨
      ∃ n, pyIntList? (firstOctetStr ip) = some n ∧
        (n ≤ 0 ∨ n = 127 ∨ 255 ≤ n)) := by
  cases h : pyIntList? (firstOctetStr ip) with
  | none => simp [clase_ip, h]
  | some n =>
    simp only [clase_ip, h]
    split_ifs with h1 h2 h3 h4 h5 <;>
      refine ⟨?_, ?_, ?_, ?_, ?_, ?_⟩ <;> constructor <;>
      first
        | (intros; rfl)
        | (intro hx; exact absurd hx (by decide))
        | (intro _; exact ⟨n, rfl, by omega⟩)
        | (rintro ⟨m, hm, hr⟩; injection hm with hm; omega)
        | (intro _; right; exact ⟨n, rfl, by omega⟩)
        | (rintro (hx | ⟨m, hm, hr⟩) <;>
            first
              | exact absurd hx (by simp)
              | (injection hm with hm; omega))

example : clase_ip "10.0.0.1" = some 'A' := by decide
example : clase_ip "127.0.0.1" = none := by decide
example : clase_ip "200.1.2.3" = some 'C' := by decide
example : clase_ip "255.1.2.3" = none := by decide
example : clase_ip "abc" = none := by decide
example : clase_ip "-5.0.0.1" = none := by decide
example : filtrarLoop [some "10.0.0.1", some "230.0.0.1", none] =
    some ([("10.0.0.1", 'A')], []) := by decide

/-! ## EJ1: fan-out vowel counters with per-worker pipes

Source: `src/EJ1/EJ1.py`. -/

/-- Python `str.lower()` (ASCII). -/
def pyLower (l : List Char) : List Char :=
  l.map Char.toLower

/-- Non-overlapping substring count, left to right, nonempty pattern. -/
def pyCountAux (pat : List Char) : List Char → Nat
  | [] => 0
  | c :: rest =>
    if pat.isPrefixOf (c :: rest) then 1 + pyCountAux pat (List.drop (pat.length - 1) rest)
    else pyCountAux pat rest
termination_by l => l.length
decreasing_by
  · simp only [List.length_drop, List.length_cons]
    omega
  · simp only [List.length_cons]
    omega

/-- Python `s.count(pat)` (for the empty pattern Python returns `len+1`). -/
def pyCount (s pat : List Char) : Nat :=
  if pat.isEmpty then s.length + 1 else pyCountAux pat s

/-- `contar_vocal_pipe(vocal, ruta_fichero, conn_send)` from `src/EJ1/EJ1.py`.
Result: the one tuple `(vocal, conteo, pid, dur)` sent on the pipe, and
whether the send endpoint was closed.  An absent file
(`FileNotFoundError`) leaves `conteo = -1`; the tuple is sent and the
endpoint closed on both paths.  `pid`/`dur` are opaque runtime values. -/
def contar_vocal_pipe (vocal : String) (file : Option (List String)) (pid : Nat) (dur : ℚ) :
    (String × Int × Nat × ℚ) × Bool :=
  let conteo : Int :=
    match file with
    | some lineas =>
      ((lineas.foldl (fun acc linea => acc + pyCount (pyLower linea.data) (pyLower vocal.data)) 0 : Nat) : Int)
    | none => -1
  ((vocal, conteo, pid, dur), true)

/-- One entry of the `resultados` dict: `{'conteo': _, 'pid': _, 'dur': _}`. -/
structure ResInfo where
  conteo : Int
  pid : Option Nat
  dur : Option ℚ
deriving DecidableEq

/-- What the parent's bounded receive for one worker can observe:
a tuple within the 0.5 s poll window, a poll timeout, or `EOFError`. -/
inductive RecvOutcome where
  | received (vocal : String) (conteo : Int) (pid : Nat) (dur : ℚ)
  | timeout
  | eof
deriving DecidableEq

/-- Python dict assignment `d[k] = v` (insertion order preserved). -/
def dictInsert (k : String) (v : ResInfo) : List (String × ResInfo) → List (String × ResInfo)
  | [] => [(k, v)]
  | (k', v') :: rest => if k' = k then (k, v) :: rest else (k', v') :: dictInsert k v rest

/-- One iteration of the parent's result-collection loop
(`src/EJ1/EJ1.py`, the `for v, p, conn_recv in procesos` loop): a received
tuple is stored under the *received* vocal; a timeout or `EOFError`
stores the missing-result marker `{'conteo': -1, 'pid': None, 'dur': None}`
under the worker's own vocal `v`. -/
def collectStep (d : List (String × ResInfo)) (p : String × RecvOutcome) : List (String × ResInfo) :=
  match p.2 with
  | .received vocal conteo pid dur => dictInsert vocal ⟨conteo, some pid, some dur⟩ d
  | .timeout => dictInsert p.1 ⟨-1, none, none⟩ d
  | .eof => dictInsert p.1 ⟨-1, none, none⟩ d

/-- The whole collection loop, starting from the empty dict. -/
def collectLoop (outcomes : List (String × RecvOutcome)) : List (String × ResInfo) :=
  outcomes.foldl collectStep []

def vocales : List String := ["a", "e", "i", "o", "u"]

/-- The entry the loop records for one worker's observed outcome. -/
def entryOf : RecvOutcome → ResInfo
  | .received _ c p d => ⟨c, some p, some d⟩
  | .timeout => ⟨-1, none, none⟩
  | .eof => ⟨-1, none, none⟩

/-- A received tuple on worker `v`'s pipe carries vocal `v` (each worker
sends exactly `(v, …)`, cf. `contar_vocal_pipe`). -/
def vocalMatches (v : String) : RecvOutcome → Prop
  | .received vocal _ _ _ => vocal = v
  | .timeout => True
  | .eof => True

theorem dictInsert_not_mem (k : String) (v : ResInfo) (acc : List (String × ResInfo))
    (h : ∀ q ∈ acc, q.1 ≠ k) : dictInsert k v acc = acc ++ [(k, v)] := by
  induction acc with
  | nil => rfl
  | cons q rest ih =>
    have hq : q.1 ≠ k := h q (List.mem_cons_self q rest)
    simp only [dictInsert, if_neg hq, List.cons_append, List.cons.injEq, true_and]
    exact ih (fun r hr => h r (List.mem_cons_of_mem q hr))

theorem collectLoop_general (l : List (String × RecvOutcome)) (acc : List (String × ResInfo))
    (hdisj : ∀ p ∈ l, ∀ q ∈ acc, q.1 ≠ p.1)
    (hnodup : (l.map Prod.fst).Nodup)
    (hmatch : ∀ p ∈ l, vocalMatches p.1 p.2) :
    l.foldl collectStep acc = acc ++ l.map (fun p => (p.1, entryOf p.2)) := by
  induction l generalizing acc with
  | nil => simp
  | cons p l ih =>
    have hstep : collectStep acc p = acc ++ [(p.1, entryOf p.2)] := by
      have hd := hdisj p (List.mem_cons_self p l)
      cases hp : p.2 with
      | received vocal c pid d =>
        have hv : vocal = p.1 := by
          have := hmatch p (List.mem_cons_self p l)
          rw [hp] at this
          exact this
        simp only [collectStep, hp, hv, entryOf]
        exact dictInsert_not_mem _ _ _ hd
      | timeout =>
        simp only [collectStep, hp, entryOf]
        exact dictInsert_not_mem _ _ _ hd
      | eof =>
        simp only [collectStep, hp, entryOf]
        exact dictInsert_not_mem _ _ _ hd
    rw [List.foldl_cons, hstep,
      ih (acc ++ [(p.1, entryOf p.2)]) ?_ (by simpa using hnodup.of_cons) ?_]
    · simp
    · intro r hr q hq
      rcases List.mem_append.1 hq with hq | hq
      · exact hdisj r (List.mem_cons_of_mem p hr) q hq
      · simp only [List.mem_singleton] at hq
        subst hq
        simp only [List.map_cons, List.nodup_cons] at hnodup
        intro he
        exact hnodup.1 (he ▸ List.mem_map_of_mem Prod.fst hr)
    · exact fun r hr => hmatch r (List.mem_cons_of_mem p hr)

/-- C3.  Fan-in completeness: whatever the five bounded receives observe
(a tuple, a timeout, or `EOFError`), provided each received tuple carries
its own worker's vocal, the final `resultados` dict has exactly five
entries, keyed by the five vocals in order, each entry being the received
`(conteo, pid, dur)` of that vocal's worker or the missing-result marker
`⟨-1, none, none⟩`; no outcome of one worker removes or blocks another's
entry. -/
theorem fan_in_completeness (outc : String → RecvOutcome)
    (h : ∀ v, vocalMatches v (outc v)) :
    collectLoop (vocales.map fun v => (v, outc v)) =
      vocales.map (fun v => (v, entryOf (outc v))) ∧
    (collectLoop (vocales.map fun v => (v, outc v))).length = 5 ∧
    (collectLoop (vocales.map fun v => (v, outc v))).map Prod.fst = vocales ∧
    ∀ v ∈ vocales,
      entryOf (outc v) = ⟨-1, none, none⟩ ∨
      ∃ c p d, outc v = .received v c p d ∧ entryOf (outc v) = ⟨c, some p, some d⟩ := by
  have key : collectLoop (vocales.map fun v => (v, outc v)) =
      vocales.map (fun v => (v, entryOf (outc v))) := by
    unfold collectLoop
    rw [collectLoop_general _ [] (by simp) (by simp [vocales])
      (by
        intro p hp
        simp only [List.mem_map] at hp
        obtain ⟨v, -, rfl⟩ := hp
        exact h v)]
    simp [Function.comp]
  refine ⟨key, by rw [key]; rfl, by rw [key]; rfl, ?_⟩
  intro v _
  cases hv : outc v with
  | received vocal c p d =>
    right
    have hm : vocal = v := by
      have hx := h v
      rw [hv] at hx
      exact hx
    exact ⟨c, p, d, by rw [hm], rfl⟩
  | timeout => left; rfl
  | eof => left; rfl

/-- Witness for `fan_in_completeness`: all five receives time out; five
marker entries result. -/
theorem fan_in_completeness_witness :
    (∀ v, vocalMatches v RecvOutcome.timeout) ∧
    collectLoop (vocales.map fun v => (v, RecvOutcome.timeout)) =
      vocales.map (fun v => (v, entryOf RecvOutcome.timeout)) :=
  ⟨fun _ => trivial, (fan_in_completeness (fun _ => .timeout) (fun _ => trivial)).1⟩

/-! ## EJ3: averaging workers (shared definitions of EJ3A and EJ3B)

Sources: `src/EJ3/EJ3A.py`, `src/EJ3/EJ3B.py`. -/

/-- Magnitude part of a Python `float` decimal literal: `digits`,
`digits.digits`, `digits.` or `.digits`. -/
def pyFloatMag (l : List Char) : Option ℚ :=
  let intPart := l.takeWhile (fun c => c ≠ '.')
  match l.dropWhile (fun c => c ≠ '.') with
  | [] => (digitRun? intPart).map (fun n => (n : ℚ))
  | '.' :: frac =>
    if intPart.all Char.isDigit && frac.all Char.isDigit &&
        (!intPart.isEmpty || !frac.isEmpty) then
      some ((digitsToNat intPart : ℚ) + (digitsToNat frac : ℚ) / (10 ^ frac.length : ℚ))
    else none
  | _ => none

/-- Model of Python `float(s)` on plain decimal literals: strip
whitespace, optional sign, magnitude; `none` models `ValueError`. -/
def pyFloatList? (l : List Char) : Option ℚ :=
  match pyStrip l with
  | '+' :: r => pyFloatMag r
  | '-' :: r => (pyFloatMag r).map Neg.neg
  | r => pyFloatMag r

/-- The notes-parsing loop shared verbatim by `calcular_media_y_apendar`
(EJ3A) and `calcular_media_pool` (EJ3B): strip each line, skip blank
lines, keep the lines `float` accepts, skip `ValueError` lines. -/
def notasOf (lineas : List String) : List ℚ :=
  lineas.filterMap (fun linea =>
    let l := pyStrip linea.data
    if l.isEmpty then none else pyFloatList? l)

/-- The guarded mean shared by both workers:
`media = sum(notas) / len(notas) if notas else 0.0`. -/
def mediaOf (lineas : List String) : ℚ :=
  if (notasOf lineas).isEmpty then 0
  else (notasOf lineas).sum / ((notasOf lineas).length : ℚ)

/-- Round to the nearest integer, ties to even — what Python's fixed-point
formatting of a value does. -/
def roundHalfEven (q : ℚ) : Int :=
  if q - ⌊q⌋ < 1/2 then ⌊q⌋
  else if 1/2 < q - ⌊q⌋ then ⌊q⌋ + 1
  else if ⌊q⌋ % 2 = 0 then ⌊q⌋ else ⌊q⌋ + 1

/-- The character of a decimal digit (only ever applied to 0–9 here). -/
def digitChar (n : Nat) : Char :=
  if n = 0 then '0' else if n = 1 then '1' else if n = 2 then '2'
  else if n = 3 then '3' else if n = 4 then '4' else if n = 5 then '5'
  else if n = 6 then '6' else if n = 7 then '7' else if n = 8 then '8'
  else '9'

/-- Decimal digits of `n`, most significant first (`n + 1` units of fuel
always suffice). -/
def natDigitsF : Nat → Nat → List Char
  | _, 0 => []
  | n, fuel + 1 =>
    if n < 10 then [digitChar n]
    else natDigitsF (n / 10) fuel ++ [digitChar (n % 10)]

def natDigits (n : Nat) : List Char :=
  natDigitsF n (n + 1)

/-- Model of Python `f"{q:.2f}"`: round `q·100` half-to-even, print sign
(kept even for a negative value rounding to 0), integer part, `'.'`, and
two fractional digits. -/
def pyFormat2 (q : ℚ) : List Char :=
  let n := roundHalfEven (q * 100)
  let sign : List Char := if n < 0 ∨ (n = 0 ∧ q < 0) then ['-'] else []
  let m := n.natAbs
  sign ++ natDigits (m / 100) ++ ['.', digitChar (m % 100 / 10), digitChar (m % 10)]

/-- Python `s.split(sep)` for a one-character separator (empty pieces
kept). -/
def splitOnChar (sep : Char) : List Char → List (List Char)
  | [] => [[]]
  | c :: rest =>
    if c = sep then [] :: splitOnChar sep rest
    else
      match splitOnChar sep rest with
      | [] => [[c]]
      | l :: ls => (c :: l) :: ls

/-- The line a successful `calcular_media_y_apendar(ruta, nombre, …)` run
appends to `medias.txt`: `f"{media:.2f} {nombre_alumno}\n"`. -/
def mediaLineBody (lineas : List String) (nombre : String) : List Char :=
  pyFormat2 (mediaOf lineas) ++ ' ' :: nombre.data

/-- `calcular_media_y_apendar` from `src/EJ3/EJ3A.py`, as the line it
appends to `medias.txt` under the lock.  On `FileNotFoundError` the
function logs and returns early, appending nothing (its Python return
value is `None` on every path); this is the `none` case. -/
def calcular_media_y_apendar (file : Option (List String)) (nombre : String) :
    Option (List Char) :=
  match file with
  | none => none
  | some lineas => some (mediaLineBody lineas nombre ++ ['\n'])

/-- `with lock:` around a critical section mutating the shared sink: the
lock is acquired, the section runs as one unit, and the lock is released
again on every exit path of the `with` block.  The returned lock state is
therefore always `false` (free). -/
def withLock (f : List Char → List Char) (st : Bool × List Char) : Bool × List Char :=
  let acquired : Bool × List Char := (true, st.2)
  let written : Bool × List Char := (acquired.1, f acquired.2)
  (false, written.2)

/-- One averaging worker's effect on the shared state `(lock, medias.txt)`:
workers holding the lock append their whole line as one unit; a worker
whose input file is missing returns early and never touches the sink. -/
def medStep (fs : Nat → Option (List String)) (names : Nat → String)
    (st : Bool × List Char) (i : Nat) : Bool × List Char :=
  match calcular_media_y_apendar (fs i) (names i) with
  | some line => withLock (fun contenido => contenido ++ line) st
  | none => st

/-- A full EJ3A run of the averaging stage: the M workers' critical
sections execute in some serialization order `sched` (the lock admits one
at a time; `sched` is whichever acquisition order the scheduler
produced), starting from an empty `medias.txt` and a free lock. -/
def runMedWorkers (fs : Nat → Option (List String)) (names : Nat → String)
    (sched : List Nat) : Bool × List Char :=
  sched.foldl (medStep fs names) (false, [])

/-! ### EJ3A: mutual exclusion on the shared `medias.txt` sink -/

/-- Concatenation of the appended units. -/
def catLines : List (List Char) → List Char
  | [] => []
  | l :: ls => l ++ catLines ls

theorem digitChar_ne_newline (k : Nat) : digitChar k ≠ '\n' := by
  unfold digitChar
  split_ifs <;> decide

theorem natDigitsF_ne_newline (fuel n : Nat) : '\n' ∉ natDigitsF n fuel := by
  induction fuel generalizing n with
  | zero => simp [natDigitsF]
  | succ fuel ih =>
    simp only [natDigitsF]
    split_ifs
    · simp only [List.mem_singleton]
      exact fun h => digitChar_ne_newline n h.symm
    · intro h
      rcases List.mem_append.1 h with h | h
      · exact ih _ h
      · simp only [List.mem_singleton] at h
        exact digitChar_ne_newline _ h.symm

theorem pyFormat2_ne_newline (q : ℚ) : '\n' ∉ pyFormat2 q := by
  unfold pyFormat2
  intro h
  rcases List.mem_append.1 h with h | h
  · rcases List.mem_append.1 h with h | h
    · split_ifs at h <;> simp_all
    · exact natDigitsF_ne_newline _ _ h
  · simp only [List.mem_cons, List.not_mem_nil, or_false] at h
    rcases h with h | h | h
    · exact absurd h (by decide)
    · exact digitChar_ne_newline _ h.symm
    · exact digitChar_ne_newline _ h.symm

theorem splitOnChar_unit (sep : Char) (line rest : List Char) (h : sep ∉ line) :
    splitOnChar sep (line ++ sep :: rest) = line :: splitOnChar sep rest := by
  induction line with
  | nil => simp [splitOnChar]
  | cons c l ih =>
    have hc : ¬(c = sep) := fun he => h (he ▸ List.mem_cons_self c l)
    have hl : sep ∉ l := fun hm => h (List.mem_cons_of_mem c hm)
    simp only [List.cons_append, splitOnChar, List.append_eq, if_neg hc, ih hl]

theorem splitOnChar_units (sep : Char) (bodies : List (List Char))
    (h : ∀ b ∈ bodies, sep ∉ b) :
    splitOnChar sep (catLines (bodies.map (· ++ [sep]))) = bodies ++ [[]] := by
  induction bodies with
  | nil => rfl
  | cons b bs ih =>
    have hb : sep ∉ b := h b (List.mem_cons_self b bs)
    simp only [List.map_cons, catLines, List.append_assoc, List.singleton_append,
      List.nil_append, splitOnChar_unit sep b _ hb,
      ih (fun x hx => h x (List.mem_cons_of_mem b hx)), List.cons_append]

theorem runMed_eq (fs : Nat → Option (List String)) (names : Nat → String)
    (sched : List Nat) (acc : List Char)
    (hex : ∀ i ∈ sched, (fs i).isSome) :
    sched.foldl (medStep fs names) (false, acc) =
      (false, acc ++ catLines (sched.map
        (fun i => mediaLineBody ((fs i).getD []) (names i) ++ ['\n']))) := by
  induction sched generalizing acc with
  | nil => simp [catLines]
  | cons i is ih =>
    obtain ⟨lineas, hl⟩ := Option.isSome_iff_exists.1 (hex i (List.mem_cons_self i is))
    have hstep : medStep fs names (false, acc) i =
        (false, acc ++ (mediaLineBody ((fs i).getD []) (names i) ++ ['\n'])) := by
      simp [medStep, calcular_media_y_apendar, hl, withLock]
    rw [List.foldl_cons, hstep, ih _ (fun j hj => hex j (List.mem_cons_of_mem i hj))]
    simp [catLines, List.append_assoc]

/-- C6.  Mutex exclusivity of the shared sink: for M averaging workers
whose input files all exist and whose names contain no newline, and any
serialization order `sched` of the lock-guarded critical sections (any
permutation of the M workers), the final `medias.txt` consists of exactly
M complete, non-interleaved lines — splitting on `'\n'` yields, besides
the empty tail after the final newline, exactly one unit
`f"{media:.2f} {nombre}"` per worker in acquisition order, a permutation
of the M workers' lines — and the lock ends (and, by `withLock`, is after
every critical section) released. -/
theorem mutex_exclusive_sink (M : Nat) (fs : Nat → Option (List String))
    (names : Nat → String) (sched : List Nat)
    (hperm : sched.Perm (List.range M))
    (hex : ∀ i, i < M → (fs i).isSome)
    (hnm : ∀ i, i < M → '\n' ∉ (names i).data) :
    (runMedWorkers fs names sched).1 = false ∧
    splitOnChar '\n' (runMedWorkers fs names sched).2 =
      sched.map (fun i => mediaLineBody ((fs i).getD []) (names i)) ++ [[]] ∧
    (splitOnChar '\n' (runMedWorkers fs names sched).2).length = M + 1 ∧
    List.Perm (splitOnChar '\n' (runMedWorkers fs names sched).2).dropLast
      ((List.range M).map (fun i => mediaLineBody ((fs i).getD []) (names i))) := by
  have hmem : ∀ i ∈ sched, i < M := by
    intro i hi
    have := hperm.mem_iff.1 hi
    rwa [List.mem_range] at this
  have hrun : runMedWorkers fs names sched =
      (false, catLines (sched.map
        (fun i => mediaLineBody ((fs i).getD []) (names i) ++ ['\n']))) := by
    unfold runMedWorkers
    rw [runMed_eq fs names sched [] (fun i hi => hex i (hmem i hi))]
    simp
  have hsplit : splitOnChar '\n' (runMedWorkers fs names sched).2 =
      sched.map (fun i => mediaLineBody ((fs i).getD []) (names i)) ++ [[]] := by
    rw [hrun]
    have := splitOnChar_units '\n'
      (sched.map (fun i => mediaLineBody ((fs i).getD []) (names i)))
      (by
        intro b hb
        simp only [List.mem_map] at hb
        obtain ⟨i, hi, rfl⟩ := hb
        intro hc
        rcases List.mem_append.1 hc with hc | hc
        · exact pyFormat2_ne_newline _ hc
        · simp only [List.mem_cons] at hc
          rcases hc with hc | hc
          · exact absurd hc (by decide)
          · exact hnm i (hmem i hi) hc)
    rw [List.map_map] at this
    exact this
  refine ⟨by rw [hrun], hsplit, ?_, ?_⟩
  · rw [hsplit]
    simp [hperm.length_eq]
  · rw [hsplit, List.dropLast_concat]
    exact hperm.map _

/-- Witness for `mutex_exclusive_sink`: two workers, existing one-line
note files, schedule `[1, 0]`. -/
theorem mutex_exclusive_sink_witness :
    ([1, 0] : List Nat).Perm (List.range 2) ∧
    (∀ i, i < 2 → ((fun _ => (some ["5.0"] : Option (List String))) i).isSome) ∧
    (∀ i, i < 2 → '\n' ∉ ((fun _ => ("X" : String)) i).data) ∧
    (runMedWorkers (fun _ => some ["5.0"]) (fun _ => "X") [1, 0]).1 = false ∧
    (splitOnChar '\n' (runMedWorkers (fun _ => some ["5.0"]) (fun _ => "X") [1, 0]).2).length
      = 2 + 1 :=
  ⟨by decide, by decide, by decide,
    (mutex_exclusive_sink 2 (fun _ => some ["5.0"]) (fun _ => "X") [1, 0]
      (by decide) (by decide) (by decide)).1,
    (mutex_exclusive_sink 2 (fun _ => some ["5.0"]) (fun _ => "X") [1, 0]
      (by decide) (by decide) (by decide)).2.2.1⟩

/-! ### EJ3B: pool averaging worker -/

/-- `calcular_media_pool(args)` from `src/EJ3/EJ3B.py`, as its
`(media, nombre_alumno)` payload (the trailing wall-clock duration and
PID of the real return tuple are elided as opaque runtime metrics).
A missing input file returns media `0.0` (`# media 0 si no existe`). -/
def calcular_media_pool (file : Option (List String)) (nombre : String) : ℚ × String :=
  match file with
  | none => (0, nombre)
  | some lineas => (mediaOf lineas, nombre)

theorem calcular_media_pool_snd (file : Option (List String)) (nombre : String) :
    (calcular_media_pool file nombre).2 = nombre := by
  cases file <;> rfl

/-- C10.  Guarded mean, in both averaging workers: the division
`sum(notas)/len(notas)` is taken only under the guard `notas ≠ []`, where
the denominator is provably nonzero; an empty parsed list — in particular
an existing file whose every line is blank or non-numeric — yields a mean
of exactly 0.  Both `calcular_media_pool` and `calcular_media_y_apendar`
compute this same guarded mean. -/
theorem guarded_mean (lineas : List String) :
    ((notasOf lineas).isEmpty = true → mediaOf lineas = 0) ∧
    ((notasOf lineas).isEmpty = false →
      ((notasOf lineas).length : ℚ) ≠ 0 ∧
      mediaOf lineas = (notasOf lineas).sum / ((notasOf lineas).length : ℚ)) ∧
    ((∀ linea ∈ lineas, pyStrip linea.data = [] ∨ pyFloatList? (pyStrip linea.data) = none) →
      mediaOf lineas = 0) ∧
    ∀ nombre, (calcular_media_pool (some lineas) nombre).1 = mediaOf lineas ∧
      calcular_media_y_apendar (some lineas) nombre =
        some (pyFormat2 (mediaOf lineas) ++ (' ' :: nombre.data) ++ ['\n']) := by
  refine ⟨fun h => by simp [mediaOf, h], fun h => ?_, fun h => ?_, fun nombre => ⟨rfl, ?_⟩⟩
  · refine ⟨?_, by simp [mediaOf, h]⟩
    have : notasOf lineas ≠ [] := by
      intro he
      rw [he] at h
      simp at h
    have hpos : 0 < (notasOf lineas).length := List.length_pos.2 this
    exact_mod_cast Nat.pos_iff_ne_zero.1 hpos
  · have he : notasOf lineas = [] := by
      rw [notasOf, List.filterMap_eq_nil_iff]
      intro linea hl
      rcases h linea hl with hs | hf
      · simp [hs]
      · by_cases hb : (pyStrip linea.data).isEmpty <;> simp [hb, hf]
    simp [mediaOf, he]
  · simp [calcular_media_y_apendar, mediaLineBody, List.append_assoc]

/-- Witness for `guarded_mean`: a file of one blank and one non-numeric
line has mean exactly 0. -/
theorem guarded_mean_witness :
    (∀ linea ∈ ([" ", "abc"] : List String), pyStrip linea.data = [] ∨
      pyFloatList? (pyStrip linea.data) = none) ∧
    mediaOf [" ", "abc"] = 0 :=
  ⟨by decide, (guarded_mean [" ", "abc"]).2.2.1 (by decide)⟩

/-! ### EJ3B: the `Pool.map` order guarantee

`pool.map(workFn, tareas)` hands each task to some pool worker; tasks
finish in an arbitrary order, but each result is stored in the slot of
its task's index and the assembled list is returned in task order.  The
completion order is modelled as a schedule: the list of task indices in
the order their results arrive. -/

/-- Completion of task `i`: its result is stored in slot `i`. -/
def applyTask {α β : Type} (f : α → β) (tasks : List α) (acc : List (Option β)) (i : Nat) :
    List (Option β) :=
  match tasks[i]? with
  | some t => acc.set i (some (f t))
  | none => acc

/-- Run a whole completion schedule over the initially-empty slots. -/
def runSchedule {α β : Type} (f : α → β) (tasks : List α) (sched : List Nat) :
    List (Option β) :=
  sched.foldl (applyTask f tasks) (List.replicate tasks.length none)

/-- `pool.map` only returns once every slot is filled. -/
def collectResults {β : Type} : List (Option β) → Option (List β)
  | [] => some []
  | none :: _ => none
  | some b :: rest => (collectResults rest).map (b :: ·)

/-- `pool.map(f, tasks)` under completion order `sched`; `none` models a
run in which some task never completed (the pool would not return). -/
def mapTasks {α β : Type} (f : α → β) (tasks : List α) (sched : List Nat) :
    Option (List β) :=
  collectResults (runSchedule f tasks sched)

theorem applyTask_length {α β : Type} (f : α → β) (tasks : List α)
    (acc : List (Option β)) (i : Nat) : (applyTask f tasks acc i).length = acc.length := by
  unfold applyTask
  cases tasks[i]? <;> simp

theorem foldl_applyTask_getElem {α β : Type} (f : α → β) (tasks : List α)
    (sched : List Nat) (acc : List (Option β)) (hacc : acc.length = tasks.length)
    (j : Nat) :
    (sched.foldl (applyTask f tasks) acc)[j]? =
      if j ∈ sched ∧ j < tasks.length then (tasks[j]?).map (fun t => some (f t))
      else acc[j]? := by
  induction sched generalizing acc with
  | nil => simp
  | cons i is ih =>
    rw [List.foldl_cons, ih _ (by rw [applyTask_length, hacc])]
    by_cases his : j ∈ is ∧ j < tasks.length
    · simp [his]
    · rw [if_neg his]
      by_cases hj : j ∈ i :: is ∧ j < tasks.length
      · have hji : j = i := by
          rcases List.mem_cons.1 hj.1 with h | h
          · exact h
          · exact absurd ⟨h, hj.2⟩ his
        subst hji
        rw [if_pos hj, applyTask]
        cases ht : tasks[j]? with
        | none =>
          rw [List.getElem?_eq_none_iff] at ht
          omega
        | some t => exact List.getElem?_set_self (by omega)
      · rw [if_neg hj, applyTask]
        cases ht : tasks[j]? with
        | none =>
          cases hti : tasks[i]? with
          | none => rfl
          | some t =>
            rcases eq_or_ne i j with rfl | hne
            · rw [ht] at hti
              exact absurd hti (by simp)
            · exact List.getElem?_set_ne hne
        | some t =>
          have hjlen : j < tasks.length := List.getElem?_eq_some_iff.1 ht |>.1
          have hji : j ≠ i := by
            intro he
            exact hj ⟨by rw [he]; exact List.mem_cons_self i is, hjlen⟩
          cases tasks[i]? with
          | none => rfl
          | some u => exact List.getElem?_set_ne (Ne.symm hji)

theorem collectResults_map_some {β : Type} (l : List β) :
    collectResults (l.map some) = some l := by
  induction l with
  | nil => rfl
  | cons b rest ih => simp [collectResults, ih]

theorem mapTasks_perm {α β : Type} (f : α → β) (tasks : List α) (sched : List Nat)
    (hperm : sched.Perm (List.range tasks.length)) :
    mapTasks f tasks sched = some (tasks.map f) := by
  have hmem : ∀ j, j ∈ sched ↔ j < tasks.length := by
    intro j
    rw [hperm.mem_iff, List.mem_range]
  have hrun : runSchedule f tasks sched = (tasks.map f).map some := by
    apply List.ext_getElem?
    intro j
    rw [runSchedule, foldl_applyTask_getElem f tasks sched _ (by simp) j]
    by_cases hj : j < tasks.length
    · rw [if_pos ⟨(hmem j).2 hj, hj⟩]
      simp only [List.getElem?_map, Option.map_map]
      rfl
    · rw [if_neg (fun hc => hj hc.2)]
      rw [List.getElem?_eq_none (by simpa using hj),
        List.getElem?_eq_none (by simpa using hj)]
  rw [mapTasks, hrun, collectResults_map_some]

/-- The EJ3B averaging batch: `tareas_med`, from `src/EJ3/EJ3B.py`
(`[(f"Alumno{i}.txt", f"Alumno{i}") for i in range(1, N_ALUMNOS + 1)]`,
`N_ALUMNOS = 10`). -/
def tareas_med : List (String × String) :=
  (List.range 10).map (fun i => ("Alumno" ++ Nat.repr (i + 1) ++ ".txt",
    "Alumno" ++ Nat.repr (i + 1)))

/-- One averaging task, run against the file system `fs`. -/
def calcPoolTask (fs : String → Option (List String)) (t : String × String) : ℚ × String :=
  calcular_media_pool (fs t.1) t.2

/-- The lines the parent writes to `medias.txt`, in `resultados_med`
order: `fm.write(f"{media:.2f} {nombre}\n")` for each result. -/
def mediasLineas (fs : String → Option (List String)) (sched : List Nat) :
    Option (List (List Char)) :=
  (mapTasks (calcPoolTask fs) tareas_med sched).map
    (fun rs => rs.map (fun r => pyFormat2 r.1 ++ (' ' :: r.2.data) ++ ['\n']))

/-- C2.  Pool order guarantee: for any task list and any completion order
(a permutation of the task indices), `pool.map` returns exactly the
results in task order, `[f t0, …, f tn]`; consequently, for the averaging
batch `tareas_med`, line `i` of `medias.txt` is the formatted mean of
`Alumno(i+1).txt` followed by the name `Alumno(i+1)`. -/
theorem pool_order_guarantee :
    (∀ {α β : Type} (f : α → β) (tasks : List α) (sched : List Nat),
      sched.Perm (List.range tasks.length) →
      mapTasks f tasks sched = some (tasks.map f)) ∧
    (∀ (fs : String → Option (List String)) (sched : List Nat),
      sched.Perm (List.range 10) →
      ∀ i, i < 10 →
        (mediasLineas fs sched).bind (fun ls => ls[i]?) =
          some (pyFormat2 (calcular_media_pool
              (fs ("Alumno" ++ Nat.repr (i + 1) ++ ".txt")) ("Alumno" ++ Nat.repr (i + 1))).1 ++
            (' ' :: ("Alumno" ++ Nat.repr (i + 1)).data) ++ ['\n'])) := by
  refine ⟨fun f tasks sched h => mapTasks_perm f tasks sched h, ?_⟩
  intro fs sched hperm i hi
  have hlen : tareas_med.length = 10 := by simp [tareas_med]
  have h1 : mapTasks (calcPoolTask fs) tareas_med sched =
      some (tareas_med.map (calcPoolTask fs)) :=
    mapTasks_perm _ _ _ (by rw [hlen]; exact hperm)
  rw [mediasLineas, h1]
  simp only [Option.map_some', Option.some_bind, List.getElem?_map, tareas_med,
    List.getElem?_range hi, calcPoolTask]
  rw [calcular_media_pool_snd]

/-- Witness for `pool_order_guarantee`: a three-task batch under the
completion order `[2, 0, 1]`, and task 0 of the averaging batch on an
empty file system. -/
theorem pool_order_guarantee_witness :
    ([2, 0, 1] : List Nat).Perm (List.range ([10, 20, 30] : List Nat).length) ∧
    mapTasks (fun n => n + 1) ([10, 20, 30] : List Nat) [2, 0, 1] = some [11, 21, 31] ∧
    (List.range 10).Perm (List.range 10) ∧ (0 : Nat) < 10 ∧
    (mediasLineas (fun _ => none) (List.range 10)).bind (fun ls => ls[0]?) =
      some (pyFormat2 (calcular_media_pool none ("Alumno" ++ Nat.repr 1)).1 ++
        (' ' :: ("Alumno" ++ Nat.repr 1).data) ++ ['\n']) :=
  ⟨by decide, pool_order_guarantee.1 _ _ _ (by decide), List.Perm.refl _, by decide,
    pool_order_guarantee.2 (fun _ => none) (List.range 10) (List.Perm.refl _) 0 (by decide)⟩

/-! ### `proceso_maximo_medias` (identical in EJ3A and EJ3B) -/

/-- What the max-finder reports: an absent `medias.txt`, a file with no
well-formed line, or the maximal `(nota, alumno)` pair. -/
inductive MaxOutcome where
  | fileMissing
  | noMeans
  | found (nota : ℚ) (alumno : String)
deriving DecidableEq

/-- Python `s.split(maxsplit=1)` on an already-stripped string: first
whitespace-free token, then the remainder after the whitespace run. -/
def split1 (l : List Char) : List (List Char) :=
  if l.isEmpty then []
  else
    let tok := l.takeWhile (fun c => ¬c.isWhitespace)
    let rest := (l.dropWhile (fun c => ¬c.isWhitespace)).dropWhile Char.isWhitespace
    if rest.isEmpty then [tok] else [tok, rest]

/-- One line of `medias.txt` as the max-finder loop sees it: strip, skip
blank, `split(maxsplit=1)`, skip unless exactly two parts, `float` the
first part (skip on `ValueError`), keep the second as the name. -/
def parseMediaLine (linea : String) : Option (ℚ × String) :=
  let l := pyStrip linea.data
  if l.isEmpty then none
  else
    match split1 l with
    | [t, rest] => (pyFloatList? t).map (fun nota => (nota, String.mk rest))
    | _ => none

/-- `if (max_nota is None) or (nota > max_nota): update`. -/
def maxStep (acc : Option (ℚ × String)) (p : ℚ × String) : Option (ℚ × String) :=
  match acc with
  | none => some p
  | some q => if q.1 < p.1 then some p else some q

/-- The line loop of `proceso_maximo_medias`. -/
def maxLoop : Option (ℚ × String) → List String → Option (ℚ × String)
  | acc, [] => acc
  | acc, linea :: rest =>
    match parseMediaLine linea with
    | none => maxLoop acc rest
    | some p => maxLoop (maxStep acc p) rest

/-- `proceso_maximo_medias(ruta_medias)`, identical in `src/EJ3/EJ3A.py`
and `src/EJ3/EJ3B.py`: reports the maximum mean, or that none was found,
or (on `FileNotFoundError`, caught) that the file is missing — in every
case it returns rather than raising. -/
def proceso_maximo_medias (file : Option (List String)) : MaxOutcome :=
  match file with
  | none => .fileMissing
  | some lineas =>
    match maxLoop none lineas with
    | none => .noMeans
    | some q => .found q.1 q.2

theorem maxLoop_eq_foldl (lineas : List String) (acc : Option (ℚ × String)) :
    maxLoop acc lineas = (lineas.filterMap parseMediaLine).foldl maxStep acc := by
  induction lineas generalizing acc with
  | nil => rfl
  | cons linea rest ih =>
    cases h : parseMediaLine linea with
    | none => simp [maxLoop, h, ih, List.filterMap_cons]
    | some p => simp [maxLoop, h, ih, List.filterMap_cons]

theorem maxStep_ne_none (acc : Option (ℚ × String)) (p : ℚ × String) :
    maxStep acc p ≠ none := by
  cases acc with
  | none => simp [maxStep]
  | some q =>
    simp only [maxStep]
    split_ifs <;> simp

theorem maxFold_spec (ps : List (ℚ × String)) (acc : Option (ℚ × String)) :
    (ps.foldl maxStep acc = none ↔ ps = [] ∧ acc = none) ∧
    (∀ m a, ps.foldl maxStep acc = some (m, a) →
      ((m, a) ∈ ps ∨ acc = some (m, a)) ∧
      (∀ p ∈ ps, p.1 ≤ m) ∧
      (∀ m' a', acc = some (m', a') → m' ≤ m)) := by
  induction ps generalizing acc with
  | nil =>
    refine ⟨by simp, ?_⟩
    intro m a h
    refine ⟨Or.inr h, by simp, ?_⟩
    intro m' a' h'
    rw [List.foldl_nil] at h
    rw [h] at h'
    have : m = m' ∧ a = a' := by simpa using h'
    exact le_of_eq this.1.symm
  | cons p ps ih =>
    rw [List.foldl_cons]
    constructor
    · constructor
      · intro h
        exact absurd ((ih (maxStep acc p)).1.1 h).2 (maxStep_ne_none acc p)
      · rintro ⟨h, -⟩
        exact absurd h (by simp)
    · intro m a h
      obtain ⟨hmem, hub, hacc⟩ := (ih (maxStep acc p)).2 m a h
      have hstep : ∀ m' a', maxStep acc p = some (m', a') → m' ≤ m := hacc
      cases hac : acc with
      | none =>
        have hsp : maxStep none p = some p := rfl
        refine ⟨?_, ?_, by simp⟩
        · rcases hmem with hm | hm
          · exact Or.inl (List.mem_cons_of_mem p hm)
          · rw [hac] at hm
            rw [hsp] at hm
            injection hm with hm
            exact Or.inl (hm ▸ List.mem_cons_self p ps)
        · intro q hq
          rcases List.mem_cons.1 hq with rfl | hq
          · exact hstep q.1 q.2 (by rw [hac, hsp])
          · exact hub q hq
      | some q0 =>
        rw [hac] at hmem hstep
        by_cases hlt : q0.1 < p.1
        · have hsp : maxStep (some q0) p = some p := by simp [maxStep, hlt]
          have hp1 : p.1 ≤ m := hstep p.1 p.2 (by rw [hsp])
          refine ⟨?_, ?_, ?_⟩
          · rcases hmem with hm | hm
            · exact Or.inl (List.mem_cons_of_mem p hm)
            · rw [hsp] at hm
              injection hm with hm
              exact Or.inl (hm ▸ List.mem_cons_self p ps)
          · intro q hq
            rcases List.mem_cons.1 hq with rfl | hq
            · exact hp1
            · exact hub q hq
          · intro m' a' h'
            injection h' with h'
            have hm' : m' = q0.1 := by rw [h']
            rw [hm']
            exact le_trans (le_of_lt hlt) hp1
        · have hsp : maxStep (some q0) p = some q0 := by simp [maxStep, hlt]
          have hq0 : q0.1 ≤ m := hstep q0.1 q0.2 (by rw [hsp])
          refine ⟨?_, ?_, ?_⟩
          · rcases hmem with hm | hm
            · exact Or.inl (List.mem_cons_of_mem p hm)
            · rw [hsp] at hm
              exact Or.inr hm
          · intro q hq
            rcases List.mem_cons.1 hq with rfl | hq
            · exact le_trans (le_of_not_lt hlt) hq0
            · exact hub q hq
          · intro m' a' h'
            injection h' with h'
            have hm' : m' = q0.1 := by rw [h']
            rw [hm']
            exact hq0

/-- C8.  Max-finder correctness: on an absent file the process reports the
error and returns (no crash — the Lean model is total and the Python
`except` returns); on a file with no well-formed line it reports that no
means were found; otherwise it reports a pair `(m, a)` that occurs among
the well-formed `(nota, alumno)` parses of the lines and whose `nota`
bounds every well-formed line's nota from above. -/
theorem max_finder_correct (file : Option (List String)) :
    (file = none → proceso_maximo_medias file = MaxOutcome.fileMissing) ∧
    (∀ lineas, file = some lineas →
      (lineas.filterMap parseMediaLine = [] ↔
        proceso_maximo_medias file = MaxOutcome.noMeans) ∧
      (∀ m a, proceso_maximo_medias file = MaxOutcome.found m a →
        (m, a) ∈ lineas.filterMap parseMediaLine ∧
        ∀ p ∈ lineas.filterMap parseMediaLine, p.1 ≤ m) ∧
      (lineas.filterMap parseMediaLine ≠ [] →
        ∃ m a, proceso_maximo_medias file = MaxOutcome.found m a)) := by
  refine ⟨fun h => by rw [h]; rfl, ?_⟩
  intro lineas h
  subst h
  have hloop : proceso_maximo_medias (some lineas) =
      match (lineas.filterMap parseMediaLine).foldl maxStep none with
      | none => MaxOutcome.noMeans
      | some q => MaxOutcome.found q.1 q.2 := by
    rw [proceso_maximo_medias, maxLoop_eq_foldl]
  have spec := maxFold_spec (lineas.filterMap parseMediaLine) none
  cases hfold : (lineas.filterMap parseMediaLine).foldl maxStep none with
  | none =>
    have hps : lineas.filterMap parseMediaLine = [] := (spec.1.1 hfold).1
    rw [hloop, hfold]
    refine ⟨by simp [hps], ?_, fun hne => absurd hps hne⟩
    intro m a hfound
    exact absurd hfound (by simp)
  | some q =>
    rw [hloop, hfold]
    have hq := spec.2 q.1 q.2 (by rw [hfold])
    have hmem : (q.1, q.2) ∈ lineas.filterMap parseMediaLine := by
      rcases hq.1 with hm | hm
      · exact hm
      · exact absurd hm (by simp)
    refine ⟨?_, ?_, fun _ => ⟨q.1, q.2, rfl⟩⟩
    · constructor
      · intro he
        rw [he] at hmem
        exact absurd hmem (List.not_mem_nil _)
      · intro he
        exact absurd he (by simp)
    · intro m a hfound
      injection hfound with h1 h2
      subst h1
      subst h2
      exact ⟨hmem, hq.2.1⟩

/-- Witness for `max_finder_correct`: a concrete `medias.txt` with one
malformed, one blank and two good lines; the maximum is found. -/
theorem max_finder_correct_witness :
    ((some ["9.25 Ana", "zz", " ", "3.5 Luis"] : Option (List String)) =
      some ["9.25 Ana", "zz", " ", "3.5 Luis"]) ∧
    (["9.25 Ana", "zz", " ", "3.5 Luis"] : List String).filterMap parseMediaLine ≠ [] ∧
    ∃ m a, proceso_maximo_medias (some ["9.25 Ana", "zz", " ", "3.5 Luis"]) =
      MaxOutcome.found m a :=
  ⟨rfl, by decide,
    ((max_finder_correct (some ["9.25 Ana", "zz", " ", "3.5 Luis"])).2 _ rfl).2.2 (by decide)⟩

/-! ## EJ4: movie filter by year

Source: `src/EJ4/EJ4.py`. -/

/-- String of a Python `int` (as interpolated by `f"{titulo};{anyo}"`). -/
def intRepr (n : Int) : List Char :=
  if n < 0 then '-' :: natDigits n.natAbs else natDigits n.natAbs

/-- One line of the movie file as `proceso_filtrar_por_anyo` sees it:
strip, skip blank, split on `';'`, strip the parts, skip unless exactly
two parts, `int` the year (skip on `ValueError`). -/
def parsePelicula (linea : String) : Option (List Char × Int) :=
  let l := pyStrip linea.data
  if l.isEmpty then none
  else
    match (splitOnChar ';' l).map pyStrip with
    | [t, a] => (pyIntList? a).map (fun anyo => (t, anyo))
    | _ => none

/-- `proceso_filtrar_por_anyo(ruta_fichero, anyo_objetivo, conn_send)`
from `src/EJ4/EJ4.py`: everything sent on the pipe (each matching movie
as `f"{titulo};{anyo}"`, then the single sentinel, which is sent on the
error paths too), and whether the endpoint was closed (it is, on every
path). -/
def proceso_filtrar_por_anyo (file : Option (List String)) (anyo_objetivo : Int) :
    List (Option (List Char)) × Bool :=
  match file with
  | none => ([none], true)
  | some lineas =>
    ((lineas.filterMap (fun linea =>
        (parsePelicula linea).bind (fun p =>
          if p.2 = anyo_objetivo then some (p.1 ++ ';' :: intRepr p.2) else none))).map some
      ++ [none], true)

/-! ## C4 and C7: the failure-reporting claims -/

/-- C4, counterexample.  The claim says every worker with an absent input
file "reports a designated error value through its result channel or
return value".  The movie-filter source does not: on a missing file it
sends exactly the same channel content as a successful run on an
existing empty file — only the sentinel, no error value — and the EJ3A
averaging worker returns early having appended nothing (its Python
return value is `None` on every path), reporting no error value either. -/
theorem missing_input_error_value_cex :
    proceso_filtrar_por_anyo none 1999 = proceso_filtrar_por_anyo (some []) 1999 ∧
    proceso_filtrar_por_anyo none 1999 = ([none], true) ∧
    calcular_media_y_apendar none "Alumno1" = none :=
  ⟨rfl, rfl, rfl⟩

/-- C4, amended.  On an absent input file no worker crashes (each Python
handler catches `FileNotFoundError`), and each still performs its normal
termination: the vowel counter sends `(vocal, -1, pid, dur)` — the
designated error count — and closes its pipe; the averaging worker logs
and returns without appending anything to `medias.txt`; the movie-filter
source sends exactly its one sentinel and closes its endpoint, reporting
the error only on the console. -/
theorem missing_input_policy (vocal : String) (pid : Nat) (dur : ℚ)
    (nombre : String) (anyo : Int) :
    contar_vocal_pipe vocal none pid dur = ((vocal, -1, pid, dur), true) ∧
    calcular_media_y_apendar none nombre = none ∧
    proceso_filtrar_por_anyo none anyo = ([none], true) ∧
    (proceso_filtrar_por_anyo none anyo).2 = true :=
  ⟨rfl, rfl, rfl, rfl⟩

/-- C7, counterexample.  The claim says the pool averaging worker's
failure payload for a missing input file is distinguishable from the
mean it returns for an existing but empty file; in the code both are
`(0.0, nombre, …)` (`# media 0 si no existe`), identical. -/
theorem error_marker_cex :
    calcular_media_pool none "Alumno1" = calcular_media_pool (some []) "Alumno1" :=
  rfl

/-- C7, amended.  The fixed error count -1 distinguishes failure from a
legitimate zero result in the vowel counter (whose successful count is a
nonnegative cast) and in the fan-in missing-result marker; the pool
averaging worker, however, returns media 0.0 for a missing file, which
coincides exactly with the mean it returns for an existing empty file. -/
theorem error_marker_distinguishability (vocal : String) (pid : Nat) (dur : ℚ)
    (lineas : List String) (nombre : String) :
    (contar_vocal_pipe vocal none pid dur).1.2.1 = -1 ∧
    0 ≤ (contar_vocal_pipe vocal (some lineas) pid dur).1.2.1 ∧
    entryOf RecvOutcome.timeout = ⟨-1, none, none⟩ ∧
    entryOf RecvOutcome.eof = ⟨-1, none, none⟩ ∧
    calcular_media_pool none nombre = (0, nombre) ∧
    calcular_media_pool none nombre = calcular_media_pool (some []) nombre :=
  ⟨rfl, Int.ofNat_nonneg _, rfl, rfl, rfl, rfl⟩
